import Mathlib

/-!
Verification of the character-stream buffering core of
`src/drivers/SAMD21/grblHAL_MKRZERO/src/usb_serial.cpp`.

The source is shallowly embedded: the two `stream_rx_buffer_t` instances
(`usb_rxbuffer` and `usb_rxbackup`) together with the function pointer
`hal.stream.read` form a `StreamState`; the transmit stage
`stream_block_tx_buffer_t` is embedded with the `char *s` cursor as an
offset from `data`.  External collaborators are oracles: the real-time
command classifier `hal.stream.enqueue_realtime_command` is a function
`Nat → Bool`, the transport's `availableForWrite` results and the
`hal.stream_blocking_callback` results are lists consumed per call.
Machine indices are `Nat`; the source masks indices with
`& (RX_BUFFER_SIZE - 1)` where `RX_BUFFER_SIZE` is a power of two, which
is written here as `% RX_BUFFER_SIZE` (the same function on `Nat`).
-/

/-- Modelled from the spec: the receive ring capacity `N` comes from a
configuration header that is not under `src/`; the spec states it is a
power of two, and the grbl default is 1024. -/
def RX_BUFFER_SIZE : Nat := 1024

/-- Local staging window size for batched reads (source line 34). -/
def BLOCK_RX_BUFFER_SIZE : Nat := 20

/-- Modelled from the spec: the transmit stage capacity comes from a
configuration header that is not under `src/` (a bounded staging buffer
with a reserved margin). -/
def BLOCK_TX_BUFFER_SIZE : Nat := 256

/-- Modelled from the spec: the stream-redirect signal byte
(`CMD_TOOL_ACK`, grbl core header not under `src/`). -/
def CMD_TOOL_ACK : Nat := 0xA3

/-- Modelled from the spec: the reset-signal byte (`CMD_RESET`, grbl core
header not under `src/`). -/
def CMD_RESET : Nat := 0x18

/-- Modelled from the spec: the line-terminator byte (ASCII line feed). -/
def ASCII_LF : Nat := 10

/-- Pointwise update of a byte store, used to model array writes. -/
def upd (d : Nat → Nat) (i v : Nat) : Nat → Nat :=
  fun j => if j = i then v else d j

@[simp] theorem upd_same (d : Nat → Nat) (i v : Nat) : upd d i v i = v := by
  simp [upd]

theorem upd_ne (d : Nat → Nat) (i v j : Nat) (h : j ≠ i) : upd d i v j = d j := by
  simp [upd, h]

/-- `stream_rx_buffer_t`: head, tail, overflow flag, backup-active flag and
the backing byte array (a total function, indices are taken mod
`RX_BUFFER_SIZE`). -/
structure stream_rx_buffer_t where
  head : Nat
  tail : Nat
  overflow : Bool
  backup : Bool
  data : Nat → Nat

/-- The active read entry point `hal.stream.read`: either the normal reader
`usb_serialGetC` or the null reader `serialGetNull` (spec section 9 models
the function-pointer swap as a two-state enum). -/
inductive ReadFn where
  | normal : ReadFn
  | null : ReadFn
deriving DecidableEq

/-- The stream core state: primary buffer `usb_rxbuffer`, snapshot slot
`usb_rxbackup`, and the active read entry point `hal.stream.read`. -/
structure StreamState where
  rx : stream_rx_buffer_t
  rxbackup : stream_rx_buffer_t
  reader : ReadFn

/-- Number of buffered bytes, `(head - tail) mod N` computed on `Nat`. -/
def ringCount (rx : stream_rx_buffer_t) : Nat :=
  (rx.head + RX_BUFFER_SIZE - rx.tail) % RX_BUFFER_SIZE

/-- The abstract content of the ring buffer: the bytes from `tail`
(exclusive of `head`) in read order. -/
def queueOf (rx : stream_rx_buffer_t) : List Nat :=
  (List.range (ringCount rx)).map (fun k => rx.data ((rx.tail + k) % RX_BUFFER_SIZE))

/-- Head and tail indices are in range; all reachable states satisfy this. -/
def RxWF (rx : stream_rx_buffer_t) : Prop :=
  rx.head < RX_BUFFER_SIZE ∧ rx.tail < RX_BUFFER_SIZE

instance (rx : stream_rx_buffer_t) : Decidable (RxWF rx) := by
  unfold RxWF; infer_instance

/-- Both live buffer instances are well formed. -/
def StreamWF (st : StreamState) : Prop :=
  RxWF st.rx ∧ RxWF st.rxbackup

instance (st : StreamState) : Decidable (StreamWF st) := by
  unfold StreamWF; infer_instance

/-- Modelled from the spec: the `BUFCOUNT` macro of the stream header (not
under `src/`), computing `(head - tail) mod size` for in-range indices. -/
def BUFCOUNT (head tail size : Nat) : Nat :=
  if head ≥ tail then head - tail else size - tail + head

/-- `usb_serialRxCount` (source lines 57-61). -/
def usb_serialRxCount (rx : stream_rx_buffer_t) : Nat :=
  BUFCOUNT rx.head rx.tail RX_BUFFER_SIZE

/-- `usb_serialRxFree` (source lines 66-70). -/
def usb_serialRxFree (rx : stream_rx_buffer_t) : Nat :=
  (RX_BUFFER_SIZE - 1) - BUFCOUNT rx.head rx.tail RX_BUFFER_SIZE

/-- `usb_serialRxFlush` (source lines 75-80); the `SerialUSB.flush()` call
only affects the transport collaborator and has no effect on this state. -/
def usb_serialRxFlush (rx : stream_rx_buffer_t) : stream_rx_buffer_t :=
  { rx with overflow := false, head := 0, tail := 0 }

/-- `usb_serialRxCancel` (source lines 85-90): writes `CMD_RESET` at
`head`, collapses `tail` to `head`, then advances `head` by one (masked). -/
def usb_serialRxCancel (rx : stream_rx_buffer_t) : stream_rx_buffer_t :=
  { rx with data := upd rx.data rx.head CMD_RESET,
            tail := rx.head,
            head := (rx.head + 1) % RX_BUFFER_SIZE }

/-- `usb_serialGetC` (source lines 166-177): returns -1 if empty, else the
byte at `tail`, advancing `tail` masked. -/
def usb_serialGetC (rx : stream_rx_buffer_t) : Int × stream_rx_buffer_t :=
  if rx.tail = rx.head then (-1, rx)
  else (Int.ofNat (rx.data rx.tail),
        { rx with tail := (rx.tail + 1) % RX_BUFFER_SIZE })

/-- `serialGetNull` (source lines 180-183). -/
def serialGetNull : Int := -1

/-- Dispatch through the `hal.stream.read` function pointer. -/
def hal_stream_read (st : StreamState) : Int × StreamState :=
  match st.reader with
  | ReadFn.null => (serialGetNull, st)
  | ReadFn.normal =>
    let p := usb_serialGetC st.rx
    (p.1, { st with rx := p.2 })

/-- `usb_serialSuspendInput` (source lines 185-193): suspend installs the
null reader; resume copies the backup over the primary when the
backup-active flag is set; the returned pending flag is computed on the
resulting state. -/
def usb_serialSuspendInput (suspend : Bool) (st : StreamState) : Bool × StreamState :=
  let st1 :=
    if suspend then { st with reader := ReadFn.null }
    else if st.rx.backup then { st with rx := st.rxbackup }
    else st
  (st1.rx.tail != st1.rx.head, st1)

/-- The push branch of the receive pump (source lines 223-229): compute the
next head; if it collides with `tail`, set overflow and drop the byte,
else store the byte at `head` and advance. -/
def rxPush (c : Nat) (rx : stream_rx_buffer_t) : stream_rx_buffer_t :=
  if (rx.head + 1) % RX_BUFFER_SIZE = rx.tail then { rx with overflow := true }
  else { rx with data := upd rx.data rx.head c,
                 head := (rx.head + 1) % RX_BUFFER_SIZE }

/-- One iteration of the classification loop of `usb_execute_realtime`
(source lines 215-231): the stream-redirect signal snapshots the primary
into the backup slot, marks backup-active, collapses `tail` to `head` and
restores the normal reader; otherwise the byte is offered to the real-time
classifier `f` and, if not claimed, pushed into the primary buffer. -/
def usb_execute_realtime_step (f : Nat → Bool) (st : StreamState) (c : Nat) : StreamState :=
  if c = CMD_TOOL_ACK ∧ st.rx.backup = false then
    { st with rxbackup := st.rx,
              rx := { st.rx with backup := true, tail := st.rx.head },
              reader := ReadFn.normal }
  else if f c then st
  else { st with rx := rxPush c st.rx }

/-- The classification loop of `usb_execute_realtime` over a batch of
incoming bytes (the `while(avail--)` loop, source lines 215-231). -/
def pumpBytes (f : Nat → Bool) : List Nat → StreamState → StreamState
  | [], st => st
  | c :: cs, st => pumpBytes f cs (usb_execute_realtime_step f st c)

/-- `usb_execute_realtime` (source lines 201-233): if the transport has
bytes available, clamp the batch size by the local staging window and the
buffer's free space, read that many bytes, and run the classification
loop on them. -/
def usb_execute_realtime (f : Nat → Bool) (transportAvail : Nat)
    (incoming : List Nat) (st : StreamState) : StreamState :=
  if transportAvail = 0 then st
  else
    let free0 := usb_serialRxFree st.rx
    let free := if free0 > BLOCK_RX_BUFFER_SIZE then BLOCK_RX_BUFFER_SIZE else free0
    let avail := if transportAvail > free then free else transportAvail
    pumpBytes f (incoming.take avail) st

/-- All-zero buffer instance (startup state of the static storage). -/
def rxInit : stream_rx_buffer_t :=
  { head := 0, tail := 0, overflow := false, backup := false, data := fun _ => 0 }

/-- Startup stream state: empty buffers, normal reader installed. -/
def stInit : StreamState :=
  { rx := rxInit, rxbackup := rxInit, reader := ReadFn.normal }

/-- Reads `n` times via `usb_serialGetC`, collecting the returned values. -/
def drain : Nat → stream_rx_buffer_t → List Int
  | 0, _ => []
  | n + 1, rx =>
    let p := usb_serialGetC rx
    p.1 :: drain n p.2

/-- Writes the bytes of `s` into the store starting at offset `off`,
modelling `memcpy(txbuf.s, s, length)`. -/
def memcpyAt : (Nat → Nat) → Nat → List Nat → (Nat → Nat)
  | d, _, [] => d
  | d, off, c :: cs => memcpyAt (upd d off c) (off + 1) cs

/-- `length - 1` computed in `size_t` arithmetic: for `length = 0` the C
expression wraps around to `SIZE_MAX`. -/
def sizeTPred (n : Nat) : Nat := (n + (2 ^ 64 - 1)) % 2 ^ 64

/-- Character access `s[i]`.  An index at or past the end is an
out-of-bounds read in the source (undefined behavior); the model returns 0
there so that it stays total. -/
def charAt (s : List Nat) (i : Nat) : Nat := s.getD i 0

/-- `stream_block_tx_buffer_t`: accumulated length, flush threshold
`max_length`, the cursor `s` as an offset from `data`, and the stage
bytes. -/
structure stream_block_tx_buffer_t where
  length : Nat
  max_length : Nat
  sOff : Nat
  data : Nat → Nat

/-- The stage bookkeeping reset performed after a completed flush
(source lines 137-138). -/
def txFlushReset (tx : stream_block_tx_buffer_t) : stream_block_tx_buffer_t :=
  { tx with length := 0, sOff := 0 }

/-- The flush loop of `usb_serialWriteS` (source lines 122-136).  The
transport's `availableForWrite` answers and the
`hal.stream_blocking_callback` answers are consumed from the given lists,
one per call; `none` means the supplied answers were exhausted before the
loop finished (the source would keep looping).  A `some` result is the
stage state at the point the source function returns: through the loop
exit followed by the reset of lines 137-138, or through the early
`return` of line 135 which skips that reset. -/
def usb_serialFlushLoop : List Nat → List Bool → stream_block_tx_buffer_t →
    Option stream_block_tx_buffer_t
  | [], _, tx => if tx.length = 0 then some (txFlushReset tx) else none
  | avail :: avails, cbs, tx =>
    if tx.length = 0 then some (txFlushReset tx)
    else
      let tx1 :=
        if avail > 10 then
          { tx with length := tx.length - min avail tx.length,
                    sOff := tx.sOff + min avail tx.length }
        else tx
      if tx1.length = 0 then some (txFlushReset tx1)
      else
        match cbs with
        | [] => none
        | cb :: cbs1 =>
          if cb then usb_serialFlushLoop avails cbs1 tx1 else some tx1

/-- `usb_serialWriteS` (source lines 107-141): append `s` to the stage if
it fits, then flush if the appended text ends in `ASCII_LF` or the stage
exceeds `max_length`.  Note the flush condition reads `s[length - 1]`,
which for the empty string is an out-of-bounds access (see `sizeTPred`);
the model reads the total `charAt` there. -/
def usb_serialWriteS (s : List Nat) (avails : List Nat) (cbs : List Bool)
    (tx : stream_block_tx_buffer_t) : Option stream_block_tx_buffer_t :=
  if s.length + tx.length < BLOCK_TX_BUFFER_SIZE then
    let tx1 : stream_block_tx_buffer_t :=
      { tx with data := memcpyAt tx.data tx.sOff s,
                length := tx.length + s.length,
                sOff := tx.sOff + s.length }
    if charAt s (sizeTPred s.length) = ASCII_LF ∨ tx1.length > tx1.max_length then
      usb_serialFlushLoop avails cbs { tx1 with sOff := 0 }
    else some tx1
  else some tx

/-- Transmit stage right after `usb_serialInit` on this board: empty, with
`max_length = min(63, BLOCK_TX_BUFFER_SIZE) - 20 = 43` (source lines
49-51). -/
def txEmpty : stream_block_tx_buffer_t :=
  { length := 0, max_length := 43, sOff := 0, data := fun _ => 0 }

/-- C9: for every starting state, calling `usb_serialSuspendInput true`
twice leaves the stream core in the same state (and returns the same
pending flag) as calling it once; neither call touches the primary buffer
or the backup slot, and the null reader is installed. -/
theorem suspend_true_idempotent (st : StreamState) :
    usb_serialSuspendInput true ((usb_serialSuspendInput true st).2)
      = usb_serialSuspendInput true st
    ∧ ((usb_serialSuspendInput true st).2).rx = st.rx
    ∧ ((usb_serialSuspendInput true st).2).rxbackup = st.rxbackup
    ∧ ((usb_serialSuspendInput true st).2).reader = ReadFn.null := by
  refine ⟨rfl, rfl, rfl, rfl⟩

/-- C10: `usb_serialRxCancel` only writes the byte at the current head
position and the head and tail indices: the overflow flag, the
backup-active flag and every other data byte are unchanged, and the
overflow flag is only cleared by an explicit `usb_serialRxFlush`. -/
theorem rxCancel_overflow_frame (rx : stream_rx_buffer_t) (i : Nat)
    (hi : i ≠ rx.head) :
    (usb_serialRxCancel rx).overflow = rx.overflow
    ∧ (usb_serialRxCancel rx).backup = rx.backup
    ∧ (usb_serialRxCancel rx).data i = rx.data i
    ∧ (usb_serialRxCancel rx).data rx.head = CMD_RESET
    ∧ (usb_serialRxCancel rx).tail = rx.head
    ∧ (usb_serialRxCancel rx).head = (rx.head + 1) % RX_BUFFER_SIZE
    ∧ (usb_serialRxFlush (usb_serialRxCancel rx)).overflow = false := by
  refine ⟨rfl, rfl, ?_, ?_, rfl, rfl, rfl⟩
  · exact upd_ne rx.data rx.head CMD_RESET i hi
  · exact upd_same rx.data rx.head CMD_RESET

/-- Witness for `rxCancel_overflow_frame` at a concrete state. -/
theorem rxCancel_overflow_frame_witness :
    (usb_serialRxCancel rxInit).overflow = rxInit.overflow
    ∧ (usb_serialRxCancel rxInit).backup = rxInit.backup
    ∧ (usb_serialRxCancel rxInit).data 5 = rxInit.data 5
    ∧ (usb_serialRxCancel rxInit).data rxInit.head = CMD_RESET
    ∧ (usb_serialRxCancel rxInit).tail = rxInit.head
    ∧ (usb_serialRxCancel rxInit).head = (rxInit.head + 1) % RX_BUFFER_SIZE
    ∧ (usb_serialRxFlush (usb_serialRxCancel rxInit)).overflow = false :=
  rxCancel_overflow_frame rxInit 5 (by decide)

/-- C1 counterexample: processing the stream-redirect signal with no
backup active installs the NORMAL reader (`usb_serialGetC`, the source
comment says "restore normal input"), not the null reader the claim
names. -/
theorem toolAck_installs_normal_reader_cx :
    (usb_execute_realtime_step (fun _ => false) stInit CMD_TOOL_ACK).reader
      = ReadFn.normal
    ∧ ReadFn.normal ≠ ReadFn.null := by
  exact ⟨rfl, by decide⟩

/-- C1 (amended): processing the stream-redirect signal when no backup is
active snapshots the whole prior primary buffer into the backup slot, sets
the backup-active flag, collapses tail to head (head itself and the data
array unchanged), and installs the NORMAL reader (the code restores normal
input here; the null reader is installed by `usb_serialSuspendInput true`,
not by this branch). -/
theorem toolAck_snapshot (f : Nat → Bool) (st : StreamState)
    (hb : st.rx.backup = false) :
    (usb_execute_realtime_step f st CMD_TOOL_ACK).rxbackup = st.rx
    ∧ (usb_execute_realtime_step f st CMD_TOOL_ACK).rx.backup = true
    ∧ (usb_execute_realtime_step f st CMD_TOOL_ACK).rx.tail
        = (usb_execute_realtime_step f st CMD_TOOL_ACK).rx.head
    ∧ (usb_execute_realtime_step f st CMD_TOOL_ACK).rx.head = st.rx.head
    ∧ (usb_execute_realtime_step f st CMD_TOOL_ACK).rx.data = st.rx.data
    ∧ (usb_execute_realtime_step f st CMD_TOOL_ACK).rx.overflow = st.rx.overflow
    ∧ (usb_execute_realtime_step f st CMD_TOOL_ACK).reader = ReadFn.normal := by
  simp [usb_execute_realtime_step, hb]

/-- Witness for `toolAck_snapshot` at the startup state. -/
theorem toolAck_snapshot_witness :
    (usb_execute_realtime_step (fun _ => false) stInit CMD_TOOL_ACK).rxbackup = stInit.rx
    ∧ (usb_execute_realtime_step (fun _ => false) stInit CMD_TOOL_ACK).rx.backup = true
    ∧ (usb_execute_realtime_step (fun _ => false) stInit CMD_TOOL_ACK).rx.tail
        = (usb_execute_realtime_step (fun _ => false) stInit CMD_TOOL_ACK).rx.head
    ∧ (usb_execute_realtime_step (fun _ => false) stInit CMD_TOOL_ACK).rx.head = stInit.rx.head
    ∧ (usb_execute_realtime_step (fun _ => false) stInit CMD_TOOL_ACK).rx.data = stInit.rx.data
    ∧ (usb_execute_realtime_step (fun _ => false) stInit CMD_TOOL_ACK).rx.overflow
        = stInit.rx.overflow
    ∧ (usb_execute_realtime_step (fun _ => false) stInit CMD_TOOL_ACK).reader = ReadFn.normal :=
  toolAck_snapshot (fun _ => false) stInit rfl

/-- A concrete full buffer: head one step behind tail (modulo the size). -/
def stFull : StreamState :=
  { rx := { head := 1023, tail := 0, overflow := false, backup := false,
            data := fun _ => 0 },
    rxbackup := rxInit, reader := ReadFn.normal }

/-- C6: pushing an ordinary byte through the receive pump while the buffer
is full (next head equals tail) sets the overflow flag and drops the byte:
head, tail and the whole data array are exactly as before. -/
theorem push_full_overflow (f : Nat → Bool) (st : StreamState) (c : Nat)
    (hfull : (st.rx.head + 1) % RX_BUFFER_SIZE = st.rx.tail)
    (hack : ¬(c = CMD_TOOL_ACK ∧ st.rx.backup = false))
    (hf : f c = false) :
    (usb_execute_realtime_step f st c).rx.overflow = true
    ∧ (usb_execute_realtime_step f st c).rx.head = st.rx.head
    ∧ (usb_execute_realtime_step f st c).rx.tail = st.rx.tail
    ∧ (usb_execute_realtime_step f st c).rx.data = st.rx.data
    ∧ (usb_execute_realtime_step f st c).rx.backup = st.rx.backup := by
  simp [usb_execute_realtime_step, hack, hf, rxPush, hfull]

/-- Witness for `push_full_overflow` on a concrete full buffer. -/
theorem push_full_overflow_witness :
    (usb_execute_realtime_step (fun _ => false) stFull 65).rx.overflow = true
    ∧ (usb_execute_realtime_step (fun _ => false) stFull 65).rx.head = stFull.rx.head
    ∧ (usb_execute_realtime_step (fun _ => false) stFull 65).rx.tail = stFull.rx.tail
    ∧ (usb_execute_realtime_step (fun _ => false) stFull 65).rx.data = stFull.rx.data
    ∧ (usb_execute_realtime_step (fun _ => false) stFull 65).rx.backup = stFull.rx.backup :=
  push_full_overflow (fun _ => false) stFull 65 (by decide) (by decide) rfl

/-- C4: evidence of the out-of-bounds access in `usb_serialWriteS` on the
empty string.  With `s` empty and the stage empty, the fit guard of the
source passes, so the flush-condition access `s[length - 1]` is performed,
and its index -- `length - 1` in `size_t` arithmetic -- is NOT within the
bounds of the input string: the source reads `s[SIZE_MAX]`, outside the
empty string. -/
theorem writeS_empty_string_oob :
    (([] : List Nat).length + txEmpty.length < BLOCK_TX_BUFFER_SIZE)
    ∧ ¬(sizeTPred ([] : List Nat).length < ([] : List Nat).length) := by
  constructor
  · decide
  · intro h
    simp [sizeTPred] at h

/-- C2 counterexample: flushing the two-byte line `"g\n"` from an empty
stage while the transport reports zero capacity and the blocking callback
answers false terminates through the early `return` of source line 135,
which SKIPS the stage reset: the accumulated length at return is 2, not 0
as the claim states. -/
theorem writeS_abort_cx :
    ((usb_serialWriteS [103, 10] [0] [false] txEmpty).map
        stream_block_tx_buffer_t.length) = some 2
    ∧ (2 : Nat) ≠ 0 := by
  constructor
  · rfl
  · decide

/-- C2 (amended): if the appended string is nonempty and ends in the line
terminator, fits the stage, the transport's first capacity answer is at or
below the usable minimum (10) and the first blocking-callback answer is
false, then the flush terminates through the early return -- but the stage
bookkeeping is NOT reset there: the accumulated length keeps its full
(nonzero) staged value; the cursor does point at the stage base, only
because the flush set it there on entry and no bytes were written. -/
theorem writeS_abort_terminates (s : List Nat) (tx : stream_block_tx_buffer_t)
    (a : Nat) (avails : List Nat) (cbs : List Bool)
    (hs : s ≠ []) (hlf : charAt s (sizeTPred s.length) = ASCII_LF)
    (hfit : s.length + tx.length < BLOCK_TX_BUFFER_SIZE) (ha : a ≤ 10) :
    usb_serialWriteS s (a :: avails) (false :: cbs) tx
      = some { length := tx.length + s.length, max_length := tx.max_length,
               sOff := 0, data := memcpyAt tx.data tx.sOff s }
    ∧ tx.length + s.length ≠ 0 := by
  have hlen : s.length ≠ 0 := fun h => hs (List.length_eq_zero.mp h)
  have hnz : tx.length + s.length ≠ 0 := by omega
  have ha10 : ¬a > 10 := by omega
  refine ⟨?_, hnz⟩
  simp only [usb_serialWriteS, if_pos hfit, hlf]
  simp only [true_or, if_true]
  simp [usb_serialFlushLoop, hnz, ha10]

/-- Witness for `writeS_abort_terminates` on a concrete aborted flush. -/
theorem writeS_abort_terminates_witness :
    usb_serialWriteS [10] [0] [false] txEmpty
      = some { length := txEmpty.length + ([10] : List Nat).length,
               max_length := txEmpty.max_length, sOff := 0,
               data := memcpyAt txEmpty.data txEmpty.sOff [10] }
    ∧ txEmpty.length + ([10] : List Nat).length ≠ 0 :=
  writeS_abort_terminates [10] txEmpty 0 [] []
    (by decide) (by decide) (by decide) (by decide)

theorem queueOf_length (rx : stream_rx_buffer_t) :
    (queueOf rx).length = ringCount rx := by
  simp [queueOf]

theorem ringCount_eq_zero_iff (rx : stream_rx_buffer_t) (hW : RxWF rx) :
    ringCount rx = 0 ↔ rx.head = rx.tail := by
  obtain ⟨hh, ht⟩ := hW
  simp only [ringCount, RX_BUFFER_SIZE] at *
  omega

theorem ringCount_le (rx : stream_rx_buffer_t) (hW : RxWF rx) :
    ringCount rx ≤ RX_BUFFER_SIZE - 1 := by
  obtain ⟨hh, ht⟩ := hW
  simp only [ringCount, RX_BUFFER_SIZE] at *
  omega

theorem queueOf_empty (rx : stream_rx_buffer_t) (h : rx.tail = rx.head) :
    queueOf rx = [] := by
  have hc : ringCount rx = 0 := by
    simp only [ringCount, RX_BUFFER_SIZE, h]
    omega
  simp [queueOf, hc]

/-- A successful push appends the byte at the end of the abstract queue and
leaves tail, overflow and the backup flag alone. -/
theorem rxPush_not_full (c : Nat) (rx : stream_rx_buffer_t) (hW : RxWF rx)
    (hnf : (rx.head + 1) % RX_BUFFER_SIZE ≠ rx.tail) :
    queueOf (rxPush c rx) = queueOf rx ++ [c]
    ∧ RxWF (rxPush c rx)
    ∧ (rxPush c rx).tail = rx.tail
    ∧ (rxPush c rx).overflow = rx.overflow
    ∧ (rxPush c rx).backup = rx.backup := by
  obtain ⟨hh, ht⟩ := hW
  have htl : (rxPush c rx).tail = rx.tail := by
    simp [rxPush, if_neg hnf]
  have hdat : (rxPush c rx).data = upd rx.data rx.head c := by
    simp [rxPush, if_neg hnf]
  have hhd : (rxPush c rx).head = (rx.head + 1) % RX_BUFFER_SIZE := by
    simp [rxPush, if_neg hnf]
  have hcnt : ringCount (rxPush c rx) = ringCount rx + 1 := by
    simp only [ringCount, hhd, htl]
    simp only [RX_BUFFER_SIZE] at hnf hh ht ⊢
    omega
  refine ⟨?_, ⟨?_, ?_⟩, htl, ?_, ?_⟩
  case refine_2 =>
    rw [hhd]
    simp only [RX_BUFFER_SIZE] at *
    omega
  case refine_3 => rw [htl]; exact ht
  case refine_4 => simp [rxPush, if_neg hnf]
  case refine_5 => simp [rxPush, if_neg hnf]
  -- the queue equation
  have hmid : ∀ k ∈ List.range (ringCount rx),
      upd rx.data rx.head c ((rx.tail + k) % RX_BUFFER_SIZE)
        = rx.data ((rx.tail + k) % RX_BUFFER_SIZE) := by
    intro k hk
    have hklt : k < ringCount rx := List.mem_range.mp hk
    apply upd_ne
    simp only [ringCount, RX_BUFFER_SIZE] at *
    omega
  have hlastix : (rx.tail + ringCount rx) % RX_BUFFER_SIZE = rx.head := by
    simp only [ringCount, RX_BUFFER_SIZE] at *
    omega
  simp only [queueOf, hcnt, htl, hdat, List.range_succ, List.map_append,
    List.map_cons, List.map_nil]
  rw [List.map_congr_left hmid, hlastix]
  simp

/-- A push into a full buffer only sets the overflow flag. -/
theorem rxPush_full (c : Nat) (rx : stream_rx_buffer_t)
    (hfull : (rx.head + 1) % RX_BUFFER_SIZE = rx.tail) :
    rxPush c rx = { rx with overflow := true } := by
  simp [rxPush, hfull]

/-- Popping from a nonempty abstract queue: `usb_serialGetC` returns its
first byte and leaves the rest, touching only `tail`. -/
theorem usb_serialGetC_cons (rx : stream_rx_buffer_t) (b : Nat) (l : List Nat)
    (hW : RxWF rx) (hq : queueOf rx = b :: l) :
    (usb_serialGetC rx).1 = Int.ofNat b
    ∧ queueOf (usb_serialGetC rx).2 = l
    ∧ RxWF (usb_serialGetC rx).2
    ∧ (usb_serialGetC rx).2.head = rx.head
    ∧ (usb_serialGetC rx).2.data = rx.data
    ∧ (usb_serialGetC rx).2.overflow = rx.overflow
    ∧ (usb_serialGetC rx).2.backup = rx.backup := by
  obtain ⟨hh, ht⟩ := hW
  have hlen : ringCount rx = l.length + 1 := by
    have h1 := queueOf_length rx
    rw [hq] at h1
    simpa using h1.symm
  have hne : ¬rx.tail = rx.head := by
    intro h
    rw [queueOf_empty rx h] at hq
    exact List.cons_ne_nil b l hq.symm
  simp only [queueOf, hlen, List.range_succ_eq_map, List.map_cons, List.map_map] at hq
  have hq0 : rx.data ((rx.tail + 0) % RX_BUFFER_SIZE) = b := (List.cons.injEq _ _ _ _ ▸ hq).1
  have hqrest : (List.range l.length).map
      ((fun k => rx.data ((rx.tail + k) % RX_BUFFER_SIZE)) ∘ Nat.succ) = l :=
    (List.cons.injEq _ _ _ _ ▸ hq).2
  have htix : (rx.tail + 0) % RX_BUFFER_SIZE = rx.tail := by
    simp only [RX_BUFFER_SIZE] at *
    omega
  rw [htix] at hq0
  simp only [usb_serialGetC, if_neg hne, hq0]
  refine ⟨trivial, ?_, ⟨hh, ?_⟩, trivial, trivial, trivial, trivial⟩
  · -- queue of the popped state
    have hcnt : ringCount (usb_serialGetC rx).2 = l.length := by
      simp only [usb_serialGetC, if_neg hne, ringCount, RX_BUFFER_SIZE] at *
      omega
    have hcnt2 : ringCount (usb_serialGetC rx).2 = l.length := hcnt
    simp only [usb_serialGetC, if_neg hne] at hcnt2
    simp only [queueOf, hcnt2]
    have hstep : ∀ k ∈ List.range l.length,
        rx.data (((rx.tail + 1) % RX_BUFFER_SIZE + k) % RX_BUFFER_SIZE)
          = ((fun k => rx.data ((rx.tail + k) % RX_BUFFER_SIZE)) ∘ Nat.succ) k := by
      intro k hk
      show rx.data (((rx.tail + 1) % RX_BUFFER_SIZE + k) % RX_BUFFER_SIZE)
        = rx.data ((rx.tail + Nat.succ k) % RX_BUFFER_SIZE)
      congr 1
      simp only [RX_BUFFER_SIZE] at *
      omega
    rw [List.map_congr_left hstep, hqrest]
  · simp only [RX_BUFFER_SIZE] at *
    omega

/-- `usb_serialGetC` on an empty buffer reports no data and changes
nothing. -/
theorem usb_serialGetC_empty (rx : stream_rx_buffer_t) (h : rx.tail = rx.head) :
    usb_serialGetC rx = (-1, rx) := by
  simp [usb_serialGetC, h]

/-- Draining `n + 1` reads from a buffer whose abstract queue has `n`
bytes returns exactly those bytes in order, then -1. -/
theorem drain_queueOf (bs : List Nat) (rx : stream_rx_buffer_t)
    (hW : RxWF rx) (hq : queueOf rx = bs) :
    drain (bs.length + 1) rx = bs.map Int.ofNat ++ [-1] := by
  induction bs generalizing rx with
  | nil =>
    have hte : rx.tail = rx.head := by
      by_contra hne
      have h1 := queueOf_length rx
      rw [hq] at h1
      have h0 : ringCount rx ≠ 0 := by
        obtain ⟨hh, ht⟩ := hW
        simp only [ringCount, RX_BUFFER_SIZE] at *
        omega
      exact h0 h1.symm
    simp [drain, usb_serialGetC_empty rx hte]
  | cons b l ih =>
    obtain ⟨h1, h2, h3, _⟩ := usb_serialGetC_cons rx b l hW hq
    show (usb_serialGetC rx).1 :: drain (l.length + 1) (usb_serialGetC rx).2 = _
    rw [h1, ih (usb_serialGetC rx).2 h3 h2]
    simp

theorem rxPush_backup (c : Nat) (rx : stream_rx_buffer_t) :
    (rxPush c rx).backup = rx.backup := by
  unfold rxPush
  split <;> rfl

/-- Pumping a batch of ordinary bytes appends them to the abstract queue,
as long as the total stays within the usable capacity. -/
theorem pumpBytes_queue (f : Nat → Bool) (cs : List Nat) (st : StreamState)
    (hW : RxWF st.rx)
    (hord : ∀ c ∈ cs, f c = false ∧ c ≠ CMD_TOOL_ACK)
    (hlen : (queueOf st.rx).length + cs.length ≤ RX_BUFFER_SIZE - 1) :
    queueOf (pumpBytes f cs st).rx = queueOf st.rx ++ cs
    ∧ RxWF (pumpBytes f cs st).rx := by
  induction cs generalizing st with
  | nil => simp [pumpBytes, hW]
  | cons c cs ih =>
    obtain ⟨hf, hc⟩ := hord c (List.mem_cons_self c cs)
    have hstep : usb_execute_realtime_step f st c
        = { st with rx := rxPush c st.rx } := by
      simp [usb_execute_realtime_step, hc, hf]
    have hnf : (st.rx.head + 1) % RX_BUFFER_SIZE ≠ st.rx.tail := by
      have hcount := queueOf_length st.rx
      obtain ⟨hh, ht⟩ := hW
      intro hfull
      simp only [List.length_cons] at hlen
      simp only [ringCount, RX_BUFFER_SIZE] at hcount hfull hh ht hlen
      omega
    obtain ⟨hqp, hWp, _, _, _⟩ := rxPush_not_full c st.rx hW hnf
    have hq1 : queueOf ({ st with rx := rxPush c st.rx } : StreamState).rx
        = queueOf st.rx ++ [c] := hqp
    have hlen1 : (queueOf ({ st with rx := rxPush c st.rx } : StreamState).rx).length
        + cs.length ≤ RX_BUFFER_SIZE - 1 := by
      rw [hq1]
      simp only [List.length_append, List.length_cons, List.length_nil] at hlen ⊢
      omega
    have hrec := ih { st with rx := rxPush c st.rx } hWp
      (fun b hb => hord b (List.mem_cons_of_mem c hb)) hlen1
    have hred : pumpBytes f (c :: cs) st
        = pumpBytes f cs { st with rx := rxPush c st.rx } := by
      show pumpBytes f cs (usb_execute_realtime_step f st c) = _
      rw [hstep]
    constructor
    · rw [hred, hrec.1, hq1]
      simp
    · rw [hred]
      exact hrec.2

/-- C5: pumping at most RX_BUFFER_SIZE - 1 ordinary (unclaimed, non-signal)
bytes into an empty primary buffer and then reading repeatedly returns
exactly those bytes in FIFO order, followed by -1 on the empty buffer. -/
theorem pump_fifo_order (f : Nat → Bool) (cs : List Nat) (st : StreamState)
    (hW : RxWF st.rx) (hemp : st.rx.tail = st.rx.head)
    (hlen : cs.length ≤ RX_BUFFER_SIZE - 1)
    (hord : ∀ c ∈ cs, f c = false ∧ c ≠ CMD_TOOL_ACK) :
    drain (cs.length + 1) (pumpBytes f cs st).rx = cs.map Int.ofNat ++ [-1] := by
  have hq0 : queueOf st.rx = [] := queueOf_empty st.rx hemp
  obtain ⟨hq, hW2⟩ := pumpBytes_queue f cs st hW hord (by rw [hq0]; simpa using hlen)
  rw [hq0] at hq
  simp only [List.nil_append] at hq
  exact drain_queueOf cs (pumpBytes f cs st).rx hW2 hq

/-- Witness for `pump_fifo_order` on two concrete bytes. -/
theorem pump_fifo_order_witness :
    drain (([65, 66] : List Nat).length + 1)
        (pumpBytes (fun _ => false) [65, 66] stInit).rx
      = ([65, 66] : List Nat).map Int.ofNat ++ [-1] :=
  pump_fifo_order (fun _ => false) [65, 66] stInit (by decide) rfl
    (by decide) (by decide)

/-- The state produced by the stream-redirect branch of the pump: snapshot
taken, backup-active set, tail collapsed to head, normal reader active. -/
def ackState (st : StreamState) : StreamState :=
  { st with rxbackup := st.rx,
            rx := { st.rx with backup := true, tail := st.rx.head },
            reader := ReadFn.normal }

theorem step_ack_eq (f : Nat → Bool) (st : StreamState)
    (hb : st.rx.backup = false) :
    usb_execute_realtime_step f st CMD_TOOL_ACK = ackState st := by
  simp [usb_execute_realtime_step, ackState, hb]

/-- While the backup-active flag is set, the pump never snapshots again:
the backup slot, the active reader, and the flag itself survive any batch
of bytes. -/
theorem pumpBytes_backup_frame (f : Nat → Bool) (cs : List Nat)
    (st : StreamState) (hb : st.rx.backup = true) :
    (pumpBytes f cs st).rxbackup = st.rxbackup
    ∧ (pumpBytes f cs st).reader = st.reader
    ∧ (pumpBytes f cs st).rx.backup = true := by
  induction cs generalizing st with
  | nil => exact ⟨rfl, rfl, hb⟩
  | cons c cs ih =>
    have hack : ¬(c = CMD_TOOL_ACK ∧ st.rx.backup = false) := by
      simp [hb]
    have hframe : (usb_execute_realtime_step f st c).rxbackup = st.rxbackup
        ∧ (usb_execute_realtime_step f st c).reader = st.reader := by
      by_cases hf : f c
      · simp [usb_execute_realtime_step, hack, hf]
      · simp [usb_execute_realtime_step, hack, hf]
    have hb2 : (usb_execute_realtime_step f st c).rx.backup = true := by
      by_cases hf : f c
      · simpa [usb_execute_realtime_step, hack, hf] using hb
      · simp [usb_execute_realtime_step, hack, hf, rxPush_backup, hb]
    obtain ⟨h1, h2, h3⟩ := ih (usb_execute_realtime_step f st c) hb2
    exact ⟨h1.trans hframe.1, h2.trans hframe.2, h3⟩

/-- Resume with backup active replaces the whole primary buffer state with
the snapshot; the read entry point is untouched. -/
theorem resume_of_backup (st : StreamState) (hb : st.rx.backup = true) :
    usb_serialSuspendInput false st
      = (st.rxbackup.tail != st.rxbackup.head, { st with rx := st.rxbackup }) := by
  simp [usb_serialSuspendInput, hb]

/-- The suspend/redirect/resume cycle of the input redirector: suspend
input, pump the stream-redirect signal followed by any further bytes, then
resume. -/
def suspendResumeRun (f : Nat → Bool) (cs : List Nat) (st : StreamState) :
    Bool × StreamState :=
  usb_serialSuspendInput false
    (pumpBytes f (CMD_TOOL_ACK :: cs) (usb_serialSuspendInput true st).2)

/-- C3 counterexample: in the reachable state where a backup is active and
the null reader is installed (signal processed, then suspend called),
resume restores the snapshot but does NOT reinstall the normal reader: the
read entry point stays the null reader, contradicting the claim that
resume reinstalls the normal reader. -/
theorem resume_keeps_null_reader_cx :
    ((usb_serialSuspendInput true
        (usb_execute_realtime_step (fun _ => false) stInit CMD_TOOL_ACK)).2.rx.backup
      = true)
    ∧ ((usb_serialSuspendInput false
        ((usb_serialSuspendInput true
          (usb_execute_realtime_step (fun _ => false) stInit CMD_TOOL_ACK)).2)).2.reader
      = ReadFn.null)
    ∧ ReadFn.null ≠ ReadFn.normal := by
  refine ⟨rfl, rfl, by decide⟩

/-- C3 (amended): in a suspend/redirect/resume cycle starting from a state
with pending bytes `bs` and no backup active, reads during suspension
report no data; after the pump processes the stream-redirect signal
(which is what reinstalls the normal reader -- resume itself leaves the
read entry point unchanged) and any further bytes, resume overwrites the
primary buffer with the snapshot, clears backup-active (via the copied
flag), returns true iff the pre-suspend buffer was non-empty, and
subsequent reads reproduce exactly the pre-suspend byte sequence. -/
theorem suspend_resume_cycle (f : Nat → Bool) (st : StreamState)
    (bs cs : List Nat) (hW : RxWF st.rx) (hq : queueOf st.rx = bs)
    (hb : st.rx.backup = false) :
    (hal_stream_read (usb_serialSuspendInput true st).2).1 = -1
    ∧ ((suspendResumeRun f cs st).1 = true ↔ bs ≠ [])
    ∧ (suspendResumeRun f cs st).2.rx = st.rx
    ∧ (suspendResumeRun f cs st).2.rx.backup = false
    ∧ (suspendResumeRun f cs st).2.reader = ReadFn.normal
    ∧ queueOf (suspendResumeRun f cs st).2.rx = bs
    ∧ drain (bs.length + 1) (suspendResumeRun f cs st).2.rx
        = bs.map Int.ofNat ++ [-1] := by
  have hstep1 : usb_execute_realtime_step f (usb_serialSuspendInput true st).2
      CMD_TOOL_ACK = ackState ((usb_serialSuspendInput true st).2) :=
    step_ack_eq f _ hb
  have hpump := pumpBytes_backup_frame f cs
    (ackState ((usb_serialSuspendInput true st).2)) rfl
  have hcs : pumpBytes f (CMD_TOOL_ACK :: cs) (usb_serialSuspendInput true st).2
      = pumpBytes f cs (ackState ((usb_serialSuspendInput true st).2)) := by
    show pumpBytes f cs (usb_execute_realtime_step f
      (usb_serialSuspendInput true st).2 CMD_TOOL_ACK) = _
    rw [hstep1]
  have hbackup : (ackState ((usb_serialSuspendInput true st).2)).rxbackup
      = st.rx := rfl
  have hreader : (ackState ((usb_serialSuspendInput true st).2)).reader
      = ReadFn.normal := rfl
  have hres0 : suspendResumeRun f cs st
      = (st.rx.tail != st.rx.head,
         { rx := st.rx, rxbackup := st.rx, reader := ReadFn.normal }) := by
    show usb_serialSuspendInput false
      (pumpBytes f (CMD_TOOL_ACK :: cs) (usb_serialSuspendInput true st).2) = _
    rw [hcs,
      resume_of_backup (pumpBytes f cs (ackState ((usb_serialSuspendInput true st).2)))
        hpump.2.2,
      hpump.1, hbackup, hpump.2.1.trans hreader]
  have hcount : bs.length = ringCount st.rx := by
    rw [← hq]
    exact queueOf_length st.rx
  have hiff0 : st.rx.tail = st.rx.head ↔ bs = [] := by
    obtain ⟨hh, ht⟩ := hW
    constructor
    · intro h
      rw [← hq]
      exact queueOf_empty st.rx h
    · intro h
      rw [h] at hcount
      simp only [List.length_nil] at hcount
      simp only [ringCount, RX_BUFFER_SIZE] at hcount hh ht ⊢
      omega
  refine ⟨rfl, ?_, ?_, ?_, ?_, ?_, ?_⟩
  · simp only [hres0, bne_iff_ne, ne_eq]
    exact not_congr hiff0
  · simp only [hres0]
  · simp only [hres0]
    exact hb
  · simp only [hres0]
  · simp only [hres0]
    exact hq
  · simp only [hres0]
    exact drain_queueOf bs st.rx hW hq

/-- A concrete state with exactly one pending byte (72) in the primary
buffer. -/
def stOneByte : StreamState :=
  { rx := { head := 1, tail := 0, overflow := false, backup := false,
            data := upd (fun _ => 0) 0 72 },
    rxbackup := rxInit, reader := ReadFn.normal }

/-- Witness for `suspend_resume_cycle` on a concrete one-byte buffer. -/
theorem suspend_resume_cycle_witness :
    (hal_stream_read (usb_serialSuspendInput true stOneByte).2).1 = -1
    ∧ ((suspendResumeRun (fun _ => false) [99] stOneByte).1 = true
        ↔ ([72] : List Nat) ≠ [])
    ∧ (suspendResumeRun (fun _ => false) [99] stOneByte).2.rx = stOneByte.rx
    ∧ (suspendResumeRun (fun _ => false) [99] stOneByte).2.rx.backup = false
    ∧ (suspendResumeRun (fun _ => false) [99] stOneByte).2.reader = ReadFn.normal
    ∧ queueOf (suspendResumeRun (fun _ => false) [99] stOneByte).2.rx = [72]
    ∧ drain (([72] : List Nat).length + 1)
        (suspendResumeRun (fun _ => false) [99] stOneByte).2.rx
      = ([72] : List Nat).map Int.ofNat ++ [-1] :=
  suspend_resume_cycle (fun _ => false) stOneByte [72] [99]
    (by decide) (by decide) rfl

/-- Interleaved operations on the stream core: a pump invocation over a
batch of bytes, or a consumer read through the active read entry point. -/
inductive StreamOp where
  | pump : List Nat → StreamOp
  | read : StreamOp

/-- Runs a sequence of operations, collecting every value returned by the
consumer read calls. -/
def runOps (f : Nat → Bool) : List StreamOp → StreamState → StreamState × List Int
  | [], st => (st, [])
  | StreamOp.pump cs :: rest, st => runOps f rest (pumpBytes f cs st)
  | StreamOp.read :: rest, st =>
    let p := hal_stream_read st
    let q := runOps f rest p.2
    (q.1, p.1 :: q.2)

/-- The pump/read invariant behind claim C7: indices in range and no byte
of the live queue is claimed by the classifier. -/
def InvQ (f : Nat → Bool) (st : StreamState) : Prop :=
  RxWF st.rx ∧ ∀ b ∈ queueOf st.rx, f b = false

theorem step_InvQ (f : Nat → Bool) (st : StreamState) (c : Nat)
    (h : InvQ f st) : InvQ f (usb_execute_realtime_step f st c) := by
  obtain ⟨⟨hh, ht⟩, hq⟩ := h
  by_cases hack : c = CMD_TOOL_ACK ∧ st.rx.backup = false
  · obtain ⟨hc, hbf⟩ := hack
    subst hc
    rw [step_ack_eq f st hbf]
    refine ⟨⟨hh, hh⟩, ?_⟩
    intro b hb
    have hempty : queueOf (ackState st).rx = [] := queueOf_empty _ rfl
    rw [hempty] at hb
    simp at hb
  · by_cases hf : f c
    · have hid : usb_execute_realtime_step f st c = st := by
        simp [usb_execute_realtime_step, hack, hf]
      rw [hid]
      exact ⟨⟨hh, ht⟩, hq⟩
    · have hstep : usb_execute_realtime_step f st c
          = { st with rx := rxPush c st.rx } := by
        simp [usb_execute_realtime_step, hack, hf]
      rw [hstep]
      have hfv : f c = false := by simpa using hf
      by_cases hfull : (st.rx.head + 1) % RX_BUFFER_SIZE = st.rx.tail
      · have hpush : queueOf ({ st with rx := rxPush c st.rx } : StreamState).rx
            = queueOf st.rx := by
          show queueOf (rxPush c st.rx) = queueOf st.rx
          rw [rxPush_full c st.rx hfull]
          simp [queueOf, ringCount]
        refine ⟨?_, ?_⟩
        · show RxWF (rxPush c st.rx)
          rw [rxPush_full c st.rx hfull]
          exact ⟨hh, ht⟩
        · intro b hb
          rw [hpush] at hb
          exact hq b hb
      · obtain ⟨hqp, hWp, _⟩ := rxPush_not_full c st.rx ⟨hh, ht⟩ hfull
        refine ⟨hWp, ?_⟩
        intro b hb
        have hb2 : b ∈ queueOf st.rx ++ [c] := by
          rw [← hqp]
          exact hb
        rcases List.mem_append.mp hb2 with h1 | h2
        · exact hq b h1
        · have hbc : b = c := by simpa using h2
          rw [hbc]
          exact hfv

theorem pumpBytes_InvQ (f : Nat → Bool) (cs : List Nat) (st : StreamState)
    (h : InvQ f st) : InvQ f (pumpBytes f cs st) := by
  induction cs generalizing st with
  | nil => exact h
  | cons c cs ih => exact ih _ (step_InvQ f st c h)

/-- A read preserves the invariant and only returns -1 or an unclaimed
byte. -/
theorem read_InvQ (f : Nat → Bool) (st : StreamState) (h : InvQ f st) :
    InvQ f (hal_stream_read st).2
    ∧ ((hal_stream_read st).1 = -1
       ∨ ∃ b, (hal_stream_read st).1 = Int.ofNat b ∧ f b = false) := by
  obtain ⟨hW, hq⟩ := h
  cases hr : st.reader with
  | null =>
    have h1 : hal_stream_read st = (serialGetNull, st) := by
      simp [hal_stream_read, hr]
    rw [h1]
    exact ⟨⟨hW, hq⟩, Or.inl rfl⟩
  | normal =>
    have h1 : hal_stream_read st
        = ((usb_serialGetC st.rx).1, { st with rx := (usb_serialGetC st.rx).2 }) := by
      simp [hal_stream_read, hr]
    rw [h1]
    rcases hcase : queueOf st.rx with _ | ⟨b, l⟩
    · have hte : st.rx.tail = st.rx.head := by
        obtain ⟨hh, ht⟩ := hW
        have hl := queueOf_length st.rx
        rw [hcase] at hl
        simp only [List.length_nil] at hl
        simp only [ringCount, RX_BUFFER_SIZE] at hl hh ht ⊢
        omega
      rw [usb_serialGetC_empty st.rx hte]
      exact ⟨⟨hW, hq⟩, Or.inl rfl⟩
    · obtain ⟨h1v, h2q, h3w, _⟩ := usb_serialGetC_cons st.rx b l hW hcase
      refine ⟨⟨h3w, ?_⟩, Or.inr ⟨b, h1v, ?_⟩⟩
      · intro x hx
        have hx2 : x ∈ queueOf (usb_serialGetC st.rx).2 := hx
        rw [h2q] at hx2
        apply hq
        rw [hcase]
        exact List.mem_cons_of_mem b hx2
      · apply hq
        rw [hcase]
        exact List.mem_cons_self b l

theorem runOps_sound (f : Nat → Bool) (ops : List StreamOp) (st : StreamState)
    (h : InvQ f st) :
    InvQ f (runOps f ops st).1
    ∧ ∀ r ∈ (runOps f ops st).2,
        r = -1 ∨ ∃ b, r = Int.ofNat b ∧ f b = false := by
  induction ops generalizing st with
  | nil =>
    refine ⟨h, ?_⟩
    intro r hr
    simp [runOps] at hr
  | cons op rest ih =>
    cases op with
    | pump cs => exact ih (pumpBytes f cs st) (pumpBytes_InvQ f cs st h)
    | read =>
      obtain ⟨h1, h2⟩ := read_InvQ f st h
      obtain ⟨h3, h4⟩ := ih (hal_stream_read st).2 h1
      refine ⟨h3, ?_⟩
      intro r hr
      have hr2 : r ∈ (hal_stream_read st).1
          :: (runOps f rest (hal_stream_read st).2).2 := hr
      rcases List.mem_cons.mp hr2 with h5 | h5
      · rw [h5]
        exact h2
      · exact h4 r h5

/-- C7: a byte the real-time classifier claims is never stored in the
primary buffer and never appears among the values returned by reads, over
every interleaving of pump batches and consumer reads starting from an
empty buffer. -/
theorem realtime_bytes_never_read (f : Nat → Bool) (ops : List StreamOp)
    (st : StreamState) (c : Nat) (hW : RxWF st.rx)
    (hemp : st.rx.tail = st.rx.head) (hc : f c = true) :
    Int.ofNat c ∉ (runOps f ops st).2
    ∧ c ∉ queueOf (runOps f ops st).1.rx := by
  have h0 : InvQ f st := by
    refine ⟨hW, ?_⟩
    intro b hb
    rw [queueOf_empty st.rx hemp] at hb
    simp at hb
  obtain ⟨hfin, hout⟩ := runOps_sound f ops st h0
  constructor
  · intro hmem
    rcases hout _ hmem with h1 | ⟨b, hb1, hb2⟩
    · have hge : (0 : Int) ≤ Int.ofNat c := Int.ofNat_nonneg c
      rw [h1] at hge
      norm_num at hge
    · have hbc : c = b := Int.ofNat.inj hb1
      rw [← hbc] at hb2
      rw [hc] at hb2
      simp at hb2
  · intro hmem
    have hfc := hfin.2 c hmem
    rw [hc] at hfc
    simp at hfc

/-- Witness for `realtime_bytes_never_read`: byte 24 is claimed by the
classifier and never shows up in the read outputs or the buffer. -/
theorem realtime_bytes_never_read_witness :
    Int.ofNat 24 ∉ (runOps (fun b => b == 24)
        [StreamOp.pump [24, 65], StreamOp.read, StreamOp.read] stInit).2
    ∧ 24 ∉ queueOf (runOps (fun b => b == 24)
        [StreamOp.pump [24, 65], StreamOp.read, StreamOp.read] stInit).1.rx :=
  realtime_bytes_never_read (fun b => b == 24)
    [StreamOp.pump [24, 65], StreamOp.read, StreamOp.read] stInit 24
    (by decide) rfl (by decide)

theorem getC_WF (rx : stream_rx_buffer_t) (h : RxWF rx) :
    RxWF (usb_serialGetC rx).2 := by
  obtain ⟨hh, ht⟩ := h
  by_cases hte : rx.tail = rx.head
  · rw [usb_serialGetC_empty rx hte]
    exact ⟨hh, ht⟩
  · have hstep : (usb_serialGetC rx).2
        = { rx with tail := (rx.tail + 1) % RX_BUFFER_SIZE } := by
      simp [usb_serialGetC, hte]
    rw [hstep]
    refine ⟨hh, ?_⟩
    show (rx.tail + 1) % RX_BUFFER_SIZE < RX_BUFFER_SIZE
    simp only [RX_BUFFER_SIZE]
    omega

theorem step_WF (f : Nat → Bool) (st : StreamState) (c : Nat)
    (h : StreamWF st) : StreamWF (usb_execute_realtime_step f st c) := by
  obtain ⟨⟨hh, ht⟩, hbh, hbt⟩ := h
  by_cases hack : c = CMD_TOOL_ACK ∧ st.rx.backup = false
  · obtain ⟨hc, hbf⟩ := hack
    subst hc
    rw [step_ack_eq f st hbf]
    exact ⟨⟨hh, hh⟩, hh, ht⟩
  · by_cases hf : f c
    · have hid : usb_execute_realtime_step f st c = st := by
        simp [usb_execute_realtime_step, hack, hf]
      rw [hid]
      exact ⟨⟨hh, ht⟩, hbh, hbt⟩
    · have hstep : usb_execute_realtime_step f st c
          = { st with rx := rxPush c st.rx } := by
        simp [usb_execute_realtime_step, hack, hf]
      rw [hstep]
      refine ⟨?_, hbh, hbt⟩
      by_cases hfull : (st.rx.head + 1) % RX_BUFFER_SIZE = st.rx.tail
      · show RxWF (rxPush c st.rx)
        rw [rxPush_full c st.rx hfull]
        exact ⟨hh, ht⟩
      · exact (rxPush_not_full c st.rx ⟨hh, ht⟩ hfull).2.1

theorem pumpBytes_WF (f : Nat → Bool) (cs : List Nat) (st : StreamState)
    (h : StreamWF st) : StreamWF (pumpBytes f cs st) := by
  induction cs generalizing st with
  | nil => exact h
  | cons c cs ih => exact ih _ (step_WF f st c h)

/-- C8: every buffer-mutating operation preserves the ring invariant --
head and tail stay in [0, RX_BUFFER_SIZE) on both buffer instances -- and
under it the buffer is empty exactly when head equals tail, at most
RX_BUFFER_SIZE - 1 bytes are buffered, and the byte count is the well
defined mod-N difference `ringCount` of head and tail. -/
theorem mutators_preserve_ring_invariant (f : Nat → Bool) (st : StreamState)
    (b : Bool) (transportAvail : Nat) (incoming : List Nat)
    (h : StreamWF st) :
    RxWF (usb_serialGetC st.rx).2
    ∧ StreamWF (usb_execute_realtime f transportAvail incoming st)
    ∧ RxWF (usb_serialRxCancel st.rx)
    ∧ RxWF (usb_serialRxFlush st.rx)
    ∧ StreamWF (usb_serialSuspendInput b st).2
    ∧ ((queueOf st.rx).length = 0 ↔ st.rx.head = st.rx.tail)
    ∧ (queueOf st.rx).length ≤ RX_BUFFER_SIZE - 1
    ∧ (queueOf st.rx).length = ringCount st.rx := by
  obtain ⟨⟨hh, ht⟩, hbh, hbt⟩ := h
  refine ⟨getC_WF st.rx ⟨hh, ht⟩, ?_, ?_, ?_, ?_, ?_, ?_, queueOf_length st.rx⟩
  · unfold usb_execute_realtime
    by_cases hz : transportAvail = 0
    · rw [if_pos hz]
      exact ⟨⟨hh, ht⟩, hbh, hbt⟩
    · rw [if_neg hz]
      exact pumpBytes_WF f _ st ⟨⟨hh, ht⟩, hbh, hbt⟩
  · constructor
    · show (st.rx.head + 1) % RX_BUFFER_SIZE < RX_BUFFER_SIZE
      simp only [RX_BUFFER_SIZE]
      omega
    · exact hh
  · constructor
    · show (0 : Nat) < RX_BUFFER_SIZE
      simp [RX_BUFFER_SIZE]
    · show (0 : Nat) < RX_BUFFER_SIZE
      simp [RX_BUFFER_SIZE]
  · cases b with
    | true => exact ⟨⟨hh, ht⟩, hbh, hbt⟩
    | false =>
      by_cases hbk : st.rx.backup
      · have hstep : (usb_serialSuspendInput false st).2
            = { st with rx := st.rxbackup } := by
          simp [usb_serialSuspendInput, hbk]
        rw [hstep]
        exact ⟨⟨hbh, hbt⟩, hbh, hbt⟩
      · have hstep : (usb_serialSuspendInput false st).2 = st := by
          simp [usb_serialSuspendInput, hbk]
        rw [hstep]
        exact ⟨⟨hh, ht⟩, hbh, hbt⟩
  · rw [queueOf_length st.rx]
    exact ringCount_eq_zero_iff st.rx ⟨hh, ht⟩
  · rw [queueOf_length st.rx]
    exact ringCount_le st.rx ⟨hh, ht⟩

/-- Witness for `mutators_preserve_ring_invariant` at the startup state. -/
theorem mutators_preserve_ring_invariant_witness :
    RxWF (usb_serialGetC stInit.rx).2
    ∧ StreamWF (usb_execute_realtime (fun _ => false) 1 [65] stInit)
    ∧ RxWF (usb_serialRxCancel stInit.rx)
    ∧ RxWF (usb_serialRxFlush stInit.rx)
    ∧ StreamWF (usb_serialSuspendInput true stInit).2
    ∧ ((queueOf stInit.rx).length = 0 ↔ stInit.rx.head = stInit.rx.tail)
    ∧ (queueOf stInit.rx).length ≤ RX_BUFFER_SIZE - 1
    ∧ (queueOf stInit.rx).length = ringCount stInit.rx :=
  mutators_preserve_ring_invariant (fun _ => false) stInit true 1 [65]
    (by decide)
